import Mathlib

/-
Verification of the reconciliation / balance-derivation / profit-loss engine
of the soad repository (src/data/sync_worker.py, src/database/db_manager.py).

Shallow embedding conventions:
* Money and quantities are rationals (Python floats carry exact decimal
  literals in every scenario considered here).
* A database table is a list of rows; SQLAlchemy object identity is an `id`
  field on Position; the session's pending state is the list itself.
* Python dicts keyed by symbol are association lists where a later insert
  with an existing key replaces the value in place (Python dict semantics).
* Exceptions are modelled with Option / Except / explicit error flags,
  matching the try/except structure of the source.
* The symbol-classification utilities (soad.utils.utils) are not part of the
  sources under verification; the spec describes them as pure functions, so
  they are abstracted as parameters (structure SymbolClass below).
-/

namespace Soad

/-- Modelled from the spec: the symbol-classification utilities consumed from
soad.utils.utils (outside the reconciliation sources). Spec section 6 lists
them as pure functions isOption, isFuturesSymbol, extractUnderlying and
contractSize; they are kept abstract as parameters of the embedding. -/
structure SymbolClass where
  is_option : String → Bool
  is_futures_symbol : String → Bool
  futures_contract_size : String → ℚ
  extract_underlying : String → String

/-- Modelled from the spec: the fixed option multiplier constant (100),
imported by db_manager.py from soad.utils.utils. -/
def OPTION_MULTIPLIER : ℚ := 100

/-- sync_worker.py line 19: UPDATE_UNCATEGORIZED_POSITIONS = False. -/
def UPDATE_UNCATEGORIZED_POSITIONS : Bool := false

/-- A row of the position table (database.models.Position). The `id` field
stands for SQLAlchemy object identity / primary key. -/
structure Position where
  id : Nat
  broker : String
  symbol : String
  strategy : String
  quantity : ℚ
  latest_price : ℚ
  cost_basis : ℚ
  last_updated : Nat
  underlying_volatility : Option ℚ
  underlying_latest_price : Option ℚ
deriving DecidableEq

/-- A row of the balance table (database.models.Balance); append-only. -/
structure Balance where
  broker : String
  strategy : String
  type : String
  balance : ℚ
  timestamp : Nat
deriving DecidableEq

/-- A trade as consumed by DBManager.calculate_profit_loss. -/
structure Trade where
  broker : String
  symbol : String
  strategy : String
  side : String
  quantity : ℚ
  executed_price : ℚ
deriving DecidableEq

/-! ## Profit/loss calculator (db_manager.py) -/

/-- Python str.lower(), expressed over the character list (String.toLower
computes the same list but is opaque to kernel reduction). -/
def lower (s : String) : String := ⟨s.data.map Char.toLower⟩

/-- DBManager.get_position: all rows matching broker, symbol and strategy are
fetched and the first one is returned (None when there is none). -/
def get_position (db : List Position) (broker symbol strategy : String) : Option Position :=
  (db.filter (fun p => decide (p.broker = broker ∧ p.symbol = symbol ∧ p.strategy = strategy))).head?

/-- DBManager.calculate_partial_profit_loss. The try/except returns None on
any exception: a missing position (attribute access on None) and a division
by a zero position quantity are therefore modelled as none. -/
def calculatePartialProfitLoss (trade : Trade) (position : Option Position) : Option ℚ :=
  match position with
  | none => none
  | some position =>
    if lower trade.side = "sell" then
      if position.quantity = 0 then none
      else some ((trade.executed_price - position.cost_basis / position.quantity) * trade.quantity)
    else if lower trade.side = "buy" ∧ position.quantity < 0 then
      some ((position.cost_basis / |position.quantity| - trade.executed_price) * |trade.quantity|)
    else none

/-- The sell branch of DBManager.calculate_profit_loss before the multiplier
adjustment: exact quantity match is a full close, anything else goes through
calculate_partial_profit_loss (also when the position is missing, where the
partial computation's except turns the attribute error into None). -/
def sell_base (db : List Position) (trade : Trade) : Option ℚ :=
  match get_position db trade.broker trade.symbol trade.strategy with
  | some p =>
    if p.quantity = trade.quantity then
      some (trade.executed_price * trade.quantity - p.cost_basis)
    else calculatePartialProfitLoss trade (some p)
  | none => calculatePartialProfitLoss trade none

/-- DBManager.calculate_profit_loss. Buys against a short position use the
signed cost basis divided by the absolute position quantity; sells branch on
exact quantity equality for a full close, otherwise delegate to the partial
computation (sell_base above), and then apply the futures / option
multipliers. A None sell_base stays None (either returned directly, or the
multiplier update raises and the outer except returns None). -/
def calculate_profit_loss (sc : SymbolClass) (db : List Position) (trade : Trade) : Option ℚ :=
  let current_price := trade.executed_price
  if lower trade.side = "buy" then
    match get_position db trade.broker trade.symbol trade.strategy with
    | some position =>
      if position.quantity < 0 then
        let cost_per_share := position.cost_basis / |position.quantity|
        some ((cost_per_share - current_price) * |trade.quantity|)
      else none
    | none => none
  else if lower trade.side = "sell" then
    match sell_base db trade with
    | none => none
    | some pl =>
      let pl := if sc.is_futures_symbol trade.symbol then pl * sc.futures_contract_size trade.symbol else pl
      let pl := if sc.is_option trade.symbol then pl * OPTION_MULTIPLIER else pl
      some pl
  else none

/-- A SymbolClass whose classifiers reject every symbol: running the
calculator against it yields the base formulas with no multiplier. -/
def plainClass (sc : SymbolClass) : SymbolClass :=
  { sc with is_option := fun _ => false, is_futures_symbol := fun _ => false }

/-- The multiplier adjustment block of calculate_profit_loss (futures
contract size first, then the option multiplier), as a standalone map. -/
def applyMultipliers (sc : SymbolClass) (symbol : String) (pl : ℚ) : ℚ :=
  let pl := if sc.is_futures_symbol symbol then pl * sc.futures_contract_size symbol else pl
  if sc.is_option symbol then pl * OPTION_MULTIPLIER else pl

/-- A SymbolClass that classifies no symbol as an option or future. -/
def scNone : SymbolClass :=
  ⟨fun _ => false, fun _ => false, fun _ => 1, fun s => s⟩

/-! ## Reconciliation engine (sync_worker.py, PositionService)

Broker positions are association lists symbol -> quantity (the broker dict
maps each symbol to a record whose relevant field is the quantity; a
missing symbol is the only falsy value). The ledger dict produced by
_fetch_db_positions is an association list symbol -> Position row built with
Python-dict insert-or-replace semantics, so a later row for the same symbol
replaces the earlier one in place. -/

/-- Python dict insertion: replace the value in place when the key exists,
append otherwise. -/
def dictInsert (d : List (String × Position)) (k : String) (v : Position) :
    List (String × Position) :=
  if d.any (fun kv => decide (kv.1 = k)) then
    d.map (fun kv => if kv.1 = k then (k, v) else kv)
  else d ++ [(k, v)]

/-- Python dict lookup (keys are unique; the first hit is the entry). -/
def alookupP (d : List (String × Position)) (k : String) : Option Position :=
  (d.find? (fun kv => decide (kv.1 = k))).map Prod.snd

/-- broker_positions.get(symbol). -/
def alookupQ (bps : List (String × ℚ)) (k : String) : Option ℚ :=
  (bps.find? (fun kv => decide (kv.1 = k))).map Prod.snd

/-- PositionService._fetch_db_positions: all Position rows of the broker,
loaded into a dict keyed by symbol alone ({pos.symbol: pos for pos in rows}). -/
def fetch_db_positions (db : List Position) (broker : String) : List (String × Position) :=
  (db.filter (fun p => decide (p.broker = broker))).foldl (fun d p => dictInsert d p.symbol p) []

/-- PositionService._get_categorized_quantity: sum of quantity over the dict's
values whose symbol matches and whose strategy is not "uncategorized". -/
def get_categorized_quantity (d : List (String × Position)) (symbol : String) : ℚ :=
  (((d.map Prod.snd).filter
      (fun pos => decide (pos.symbol = symbol ∧ pos.strategy ≠ "uncategorized"))).map
    (fun pos => pos.quantity)).sum

/-- PositionService._calculate_net_broker_quantity. -/
def calculate_net_broker_quantity (broker_quantity categorized_quantity : ℚ) : ℚ :=
  max (broker_quantity - categorized_quantity) 0

/-- Mutation of a session object: every row with this identity gets the new
quantity (the dict shares the same objects, see dictSetQuantity). -/
def setQuantityById (db : List Position) (i : Nat) (q : ℚ) : List Position :=
  db.map (fun p => if p.id = i then { p with quantity := q } else p)

/-- The dict's view of the same in-place mutation. -/
def dictSetQuantity (d : List (String × Position)) (i : Nat) (q : ℚ) :
    List (String × Position) :=
  d.map (fun kv => if kv.2.id = i then (kv.1, { kv.2 with quantity := q }) else kv)

/-- One iteration of the loop body of
PositionService._remove_excess_uncategorized_positions, acting on the pair
(session rows, fetched dict). Uncategorized rows whose symbol the broker no
longer reports are deleted from the session (the dict keeps the stale entry,
as in the source); otherwise the uncategorized quantity is clamped down to
max(brokerQty - categorizedQty, 0) when it exceeds it
(_adjust_uncategorized_position). -/
def shrinkStep (bps : List (String × ℚ)) (st : List Position × List (String × Position))
    (key : String) : List Position × List (String × Position) :=
  match alookupP st.2 key with
  | none => st
  | some db_position =>
    if db_position.strategy = "uncategorized" then
      match alookupQ bps key with
      | none => (st.1.filter (fun p => decide (p.id ≠ db_position.id)), st.2)
      | some broker_quantity =>
        let categorized_quantity := get_categorized_quantity st.2 key
        let net := calculate_net_broker_quantity broker_quantity categorized_quantity
        if db_position.quantity > net then
          (setQuantityById st.1 db_position.id net, dictSetQuantity st.2 db_position.id net)
        else st
    else st

/-- PositionService._remove_excess_uncategorized_positions: the loop over the
dict's items, in insertion order. -/
def remove_excess_uncategorized_positions (bps : List (String × ℚ)) :
    List String → List Position × List (String × Position) →
    List Position × List (String × Position)
  | [], st => st
  | k :: ks, st => remove_excess_uncategorized_positions bps ks (shrinkStep bps st k)

/-- db_symbols - broker_symbols in _remove_db_positions. -/
def symbols_to_remove (d : List (String × Position)) (bps : List (String × ℚ)) : List String :=
  (d.map Prod.fst).filter (fun s => decide (alookupQ bps s = none))

/-- PositionService._remove_db_positions: SQL delete of every row of the
broker whose symbol is absent from the broker's position set. -/
def remove_db_positions (db : List Position) (broker : String)
    (d : List (String × Position)) (bps : List (String × ℚ)) : List Position :=
  db.filter (fun p => decide (¬ (p.broker = broker ∧ p.symbol ∈ symbols_to_remove d bps)))

/-- PositionService._update_existing_position: overwrite quantity and
last_updated with the broker's values. -/
def update_existing_position (db : List Position) (i : Nat) (broker_quantity : ℚ)
    (now : Nat) : List Position :=
  db.map (fun p =>
    if p.id = i then { p with quantity := broker_quantity, last_updated := now } else p)

/-- PositionService._add_missing_positions: for every broker position with a
ledger row, overwrite it; with UPDATE_UNCATEGORIZED_POSITIONS = False a
broker symbol without a ledger row is only logged. -/
def add_missing_positions (db : List Position) (d : List (String × Position)) (now : Nat) :
    List (String × ℚ) → List Position
  | [] => db
  | x :: rest =>
    match alookupP d x.1 with
    | some existing_position =>
      add_missing_positions (update_existing_position db existing_position.id x.2 now) d now rest
    | none => add_missing_positions db d now rest

/-- PositionService.reconcile_positions: shrink, prune, re-fetch, grow, commit. -/
def reconcile_positions (broker : String) (bps : List (String × ℚ))
    (db : List Position) (now : Nat) : List Position :=
  let d := fetch_db_positions db broker
  let st := remove_excess_uncategorized_positions bps (d.map Prod.fst) (db, d)
  let db2 := remove_db_positions st.1 broker d bps
  let d2 := fetch_db_positions db2 broker
  add_missing_positions db2 d2 now bps

/-- Descent relation for rows across the shrink pass: identity, broker, symbol
and strategy are preserved; the quantity is either untouched or has been
clamped to a value of the form max(. , 0), hence nonnegative. -/
def RowFrom (p q : Position) : Prop :=
  p.id = q.id ∧ p.broker = q.broker ∧ p.symbol = q.symbol ∧ p.strategy = q.strategy ∧
    (p.quantity = q.quantity ∨ 0 ≤ p.quantity)

/-- Descent relation for rows across the grow pass: identity, broker, symbol
and strategy are preserved; the quantity is either untouched or overwritten
with a broker-reported quantity. -/
def GrowFrom (bps : List (String × ℚ)) (p q : Position) : Prop :=
  p.id = q.id ∧ p.broker = q.broker ∧ p.symbol = q.symbol ∧ p.strategy = q.strategy ∧
    (p.quantity = q.quantity ∨ ∃ x ∈ bps, p.quantity = x.2)

/-! ## Balance derivation engine (sync_worker.py, BalanceService)

The broker gateway is abstracted by a price function (broker, symbol) -> price
and a broker account value. The balance table is append-only; SELECT ...
ORDER BY timestamp DESC LIMIT 1 is modelled by a fold that keeps the row with
the greatest timestamp, a later row winning ties (within one derivation run
all timestamps written are strictly increasing in practice; tie order among
equal timestamps is unspecified in SQL). -/

/-- One comparison step of the ORDER BY timestamp DESC LIMIT 1 scan. -/
def pickLatest (acc : Option Balance) (r : Balance) : Option Balance :=
  match acc with
  | none => some r
  | some x => if x.timestamp ≤ r.timestamp then some r else some x

/-- The row filter of the balance queries: broker, strategy and type match. -/
def balFilter (broker strategy btype : String) : Balance → Bool :=
  fun r => decide (r.broker = broker ∧ r.strategy = strategy ∧ r.type = btype)

/-- The most recent balance row for (broker, strategy, type), if any. -/
def latestBalance (db : List Balance) (broker strategy btype : String) : Option Balance :=
  (db.filter (balFilter broker strategy btype)).foldl pickLatest none

/-- Value of the most recent row for (broker, strategy, type), defaulting to 0. -/
def latestBalanceD (db : List Balance) (broker strategy btype : String) : ℚ :=
  ((latestBalance db broker strategy btype).map (fun r => r.balance)).getD 0

/-- BalanceService._get_cash_balance: most recent cash row's value, 0 if none. -/
def get_cash_balance (db : List Balance) (broker strategy : String) : ℚ :=
  latestBalanceD db broker strategy "cash"

/-- BalanceService._calculate_positions_balance: for each of the strategy's
positions the fetched price is first scaled by quantity and the option
multiplier 100 (options) or by quantity and the contract size (futures), and
the result is then multiplied by quantity again - exactly as in the source. -/
def calculate_positions_balance (sc : SymbolClass) (prices : String → String → ℚ)
    (pdb : List Position) (broker strategy : String) : ℚ :=
  ((pdb.filter (fun p => decide (p.broker = broker ∧ p.strategy = strategy))).map
    (fun position =>
      let latest_price := prices broker position.symbol
      let latest_price :=
        if sc.is_option position.symbol then latest_price * position.quantity * 100
        else if sc.is_futures_symbol position.symbol then
          latest_price * position.quantity * sc.futures_contract_size position.symbol
        else latest_price
      latest_price * position.quantity)).sum

/-- BalanceService._insert_or_update_balance: append a new row. -/
def insert_or_update_balance (db : List Balance) (broker strategy btype : String)
    (value : ℚ) (t : Nat) : List Balance :=
  db ++ [⟨broker, strategy, btype, value, t⟩]

/-- BalanceService.update_strategy_balance: read the latest cash value,
recompute the positions value, and append cash / positions / total rows. -/
def update_strategy_balance (sc : SymbolClass) (prices : String → String → ℚ)
    (pdb : List Position) (db : List Balance) (broker strategy : String) (t : Nat) :
    List Balance :=
  let cash_balance := get_cash_balance db broker strategy
  let positions_balance := calculate_positions_balance sc prices pdb broker strategy
  let db := insert_or_update_balance db broker strategy "cash" cash_balance t
  let db := insert_or_update_balance db broker strategy "positions" positions_balance t
  insert_or_update_balance db broker strategy "total" (cash_balance + positions_balance) t

/-- First-occurrence deduplication, modelling SELECT DISTINCT. -/
def dedupFirst (l : List String) : List String :=
  l.foldl (fun acc x => if x ∈ acc then acc else acc ++ [x]) []

/-- BalanceService._get_strategies: distinct strategies of the broker's
balance rows, excluding "uncategorized". -/
def get_strategies (db : List Balance) (broker : String) : List String :=
  dedupFirst ((db.filter
    (fun r => decide (r.broker = broker ∧ r.strategy ≠ "uncategorized"))).map
    (fun r => r.strategy))

/-- BalanceService._sum_each_strategy_balance: total of latest cash plus
recomputed positions value over the given strategies. -/
def sum_each_strategy_balance (sc : SymbolClass) (prices : String → String → ℚ)
    (pdb : List Position) (db : List Balance) (broker : String)
    (strategies : List String) : ℚ :=
  strategies.foldl (fun total_balance strategy =>
    total_balance + (get_cash_balance db broker strategy +
      calculate_positions_balance sc prices pdb broker strategy)) 0

/-- BalanceService.update_all_strategy_balances followed by
update_uncategorized_balances: derive rows for every real strategy, then
insert one uncategorized cash row holding
max(0, account value - re-derived categorized sum). -/
def update_all_strategy_balances (sc : SymbolClass) (prices : String → String → ℚ)
    (pdb : List Position) (db : List Balance) (broker : String) (t : Nat)
    (account_value : ℚ) : List Balance :=
  let strategies := get_strategies db broker
  let db1 := strategies.foldl (fun d s => update_strategy_balance sc prices pdb d broker s t) db
  let categorized_balance_sum :=
    sum_each_strategy_balance sc prices pdb db1 broker (get_strategies db1 broker)
  let uncategorized_balance := max 0 (account_value - categorized_balance_sum)
  db1 ++ [⟨broker, "uncategorized", "cash", uncategorized_balance, t⟩]

/-- The three rows appended for one strategy in one derivation cycle. -/
def mkRows (broker strategy : String) (c p : ℚ) (t : Nat) : List Balance :=
  [⟨broker, strategy, "cash", c, t⟩, ⟨broker, strategy, "positions", p, t⟩,
   ⟨broker, strategy, "total", c + p, t⟩]

/-- Concatenation of per-strategy row blocks, in strategy order. -/
def concatRows (f : String → List Balance) : List String → List Balance
  | [] => []
  | s :: rest => f s ++ concatRows f rest

/-- The row block one derivation cycle appends for strategy s, with the cash
value read from the given balance table. -/
def strategyRows (sc : SymbolClass) (prices : String → String → ℚ) (pdb : List Position)
    (db : List Balance) (broker : String) (t : Nat) (s : String) : List Balance :=
  mkRows broker s (get_cash_balance db broker s)
    (calculate_positions_balance sc prices pdb broker s) t

/-- Formalisation of claim C1's words: each position contributes
price * quantity * multiplier with quantity entering exactly once
(options multiply by 100, futures by the declared contract size). -/
def claimPositionsBalance (sc : SymbolClass) (prices : String → String → ℚ)
    (pdb : List Position) (broker strategy : String) : ℚ :=
  ((pdb.filter (fun p => decide (p.broker = broker ∧ p.strategy = strategy))).map
    (fun position =>
      if sc.is_option position.symbol then
        prices broker position.symbol * position.quantity * 100
      else if sc.is_futures_symbol position.symbol then
        prices broker position.symbol * position.quantity * sc.futures_contract_size position.symbol
      else prices broker position.symbol * position.quantity)).sum

/-! ## Position valuation engine (sync_worker.py, PositionService price loop)

The broker price feed may raise (Except.error, caught by the per-position
try/except) or report no price (Option none); the volatility oracle catches
its own exceptions and yields none on failure
(_calculate_historical_volatility). In-place mutation of a position object
is modelled by returning the mutated row together with a flag telling
whether an exception escaped the per-position body. -/

structure PxOracle where
  get_latest_price : String → String → Except Unit (Option ℚ)
  volatility : String → Option ℚ

/-- PositionService._get_underlying_symbol. -/
def get_underlying_symbol (sc : SymbolClass) (position : Position) : String :=
  if sc.is_option position.symbol then sc.extract_underlying position.symbol
  else position.symbol

/-- PositionService._update_position_price together with
_update_volatility_and_underlying_price, for one position. Returns the row as
mutated when the body finished or when an exception was raised part-way (the
already-performed in-place mutations persist), plus the exception flag. A
missing own price (falsy in Python, so None or 0) returns with no mutation. -/
def update_position_price (sc : SymbolClass) (o : PxOracle) (now : Nat)
    (position : Position) : Position × Bool :=
  match o.get_latest_price position.broker position.symbol with
  | Except.error _ => (position, true)
  | Except.ok none => (position, false)
  | Except.ok (some latest_price) =>
    if latest_price = 0 then (position, false)
    else
      let position := { position with latest_price := latest_price, last_updated := now }
      let underlying_symbol := get_underlying_symbol sc position
      match o.get_latest_price position.broker underlying_symbol with
      | Except.error _ => (position, true)
      | Except.ok latest_underlying_price =>
        match o.volatility underlying_symbol with
        | some volatility =>
          let position := { position with underlying_volatility := some volatility }
          match latest_underlying_price with
          | none => (position, true)
          | some up => ({ position with underlying_latest_price := some up }, false)
        | none => (position, false)

/-- PositionService._update_prices_and_volatility: the batch loop; each
position's exceptions are caught independently and the loop continues. -/
def update_prices_and_volatility (sc : SymbolClass) (o : PxOracle) (now : Nat) :
    List Position → List Position
  | [] => []
  | p :: ps =>
    (update_position_price sc o now p).1 :: update_prices_and_volatility sc o now ps

/-- Events of one valuation run: one entry per processed position, then the
terminal session.commit(). -/
inductive SyncEvent where
  | processed (symbol : String)
  | commit
deriving DecidableEq

/-- PositionService.update_position_prices_and_volatility: run the batch loop
over every position, then issue a single commit. -/
def update_position_prices_and_volatility (sc : SymbolClass) (o : PxOracle) (now : Nat)
    (positions : List Position) : List Position × List SyncEvent :=
  (update_prices_and_volatility sc o now positions,
   positions.map (fun p => SyncEvent.processed p.symbol) ++ [SyncEvent.commit])

/-! ## Sync orchestrator (sync_worker.py, module level)

The bodies of the two stages are abstracted by their outcomes: per broker the
outcome of reconcile+update_all_strategy_balances, and one outcome for the
valuation stage. asyncio.wait_for's deadline is a boolean input. -/

/-- The loop of _reconcile_brokers_and_update_balances: brokers are processed
in order; the first exception aborts the loop (there is no per-broker catch).
Returns the brokers whose stage completed and whether an exception escaped. -/
def run_broker_stage (outcome : String → Except Unit Unit) :
    List String → List String × Bool
  | [] => ([], false)
  | b :: bs =>
    match outcome b with
    | Except.error _ => ([], true)
    | Except.ok _ =>
      let r := run_broker_stage outcome bs
      (b :: r.1, r.2)

/-- Whether a broker's reconcile+balance stage succeeds. -/
def okOutcome (outcome : String → Except Unit Unit) (b : String) : Bool :=
  match outcome b with
  | Except.ok _ => true
  | Except.error _ => false

/-- Observable outcome of one iteration body. -/
structure IterationTrace where
  brokers_updated : List String
  broker_stage_error_caught : Bool
  valuation_ran : Bool
  valuation_error_caught : Bool
deriving DecidableEq

/-- _run_sync_worker_iteration_logic: the broker stage runs under its own
try/except, then the valuation stage runs under its own try/except; both
exceptions are caught and logged, and the body always completes. -/
def run_sync_worker_iteration_logic (outcome : String → Except Unit Unit)
    (brokers : List String) (valuation : Except Unit Unit) : IterationTrace :=
  let r := run_broker_stage outcome brokers
  { brokers_updated := r.1
    broker_stage_error_caught := r.2
    valuation_ran := true
    valuation_error_caught :=
      match valuation with
      | Except.error _ => true
      | Except.ok _ => false }

/-- _run_sync_worker_iteration: asyncio.wait_for re-raises the timeout; any
other outcome of the body is returned. -/
def run_sync_worker_iteration (timed_out : Bool) (outcome : String → Except Unit Unit)
    (brokers : List String) (valuation : Except Unit Unit) :
    Except Unit IterationTrace :=
  if timed_out then Except.error ()
  else Except.ok (run_sync_worker_iteration_logic outcome brokers valuation)

/-- A SymbolClass classifying exactly the symbol OPT as an option. -/
def scOpt : SymbolClass :=
  ⟨fun s => decide (s = "OPT"), fun _ => false, fun _ => 1, fun s => s⟩

/-- An oracle whose price fetches always raise. -/
def failingOracle : PxOracle :=
  ⟨fun _ _ => Except.error (), fun _ => none⟩

/-! # Theorems -/

theorem lower_buy : lower "buy" = "buy" := by decide

theorem lower_sell : lower "sell" = "sell" := by decide

theorem sell_ne_buy : ¬ ("sell" : String) = "buy" := by decide

/-! ## Orchestrator lemmas -/

theorem run_broker_stage_eq (outcome : String → Except Unit Unit) :
    ∀ bs : List String,
      run_broker_stage outcome bs =
        (bs.takeWhile (okOutcome outcome), !bs.all (okOutcome outcome)) := by
  intro bs
  induction bs with
  | nil => rfl
  | cons b rest ih =>
    cases h : outcome b with
    | error e =>
      simp [run_broker_stage, h, List.takeWhile_cons, List.all_cons, okOutcome]
    | ok v =>
      simp [run_broker_stage, h, List.takeWhile_cons, List.all_cons, okOutcome, ih]

/-! ## Valuation lemmas -/

theorem update_prices_and_volatility_map (sc : SymbolClass) (o : PxOracle) (now : Nat) :
    ∀ l : List Position,
      update_prices_and_volatility sc o now l =
        l.map (fun p => (update_position_price sc o now p).1) := by
  intro l
  induction l with
  | nil => rfl
  | cons p ps ih => simp [update_prices_and_volatility, ih]

theorem processed_count_commit (l : List Position) :
    (l.map (fun p => SyncEvent.processed p.symbol)).count SyncEvent.commit = 0 := by
  induction l with
  | nil => rfl
  | cons p ps ih => simpa [List.count_cons] using ih

/-- C8, counterexample: with two brokers whose stage outcomes are error then
success, the iteration body catches the error at the stage boundary and the
second broker's reconcile+balance work never runs, contrary to the claim that
one broker's failure does not prevent balance derivation for the others. -/
theorem c8_counterexample :
    (run_sync_worker_iteration_logic
        (fun b => if b = "b1" then Except.error () else Except.ok ())
        ["b1", "b2"] (Except.ok ())).brokers_updated = [] ∧
    okOutcome (fun b => if b = "b1" then Except.error () else Except.ok ()) "b2" = true ∧
    ¬ "b2" ∈ (run_sync_worker_iteration_logic
        (fun b => if b = "b1" then Except.error () else Except.ok ())
        ["b1", "b2"] (Except.ok ())).brokers_updated := by
  refine ⟨rfl, rfl, ?_⟩
  intro h
  simp [run_sync_worker_iteration_logic, run_broker_stage] at h

/-- C8 (amended): one sync-worker iteration propagates an exception to its
caller exactly when the iteration timeout expires; exceptions of the
reconcile+balance stage and of the valuation stage are caught inside the
iteration, and a reconcile+balance failure does not prevent the valuation
stage from running. However the reconcile+balance stage is guarded as a
whole: the brokers processed are exactly the longest prefix with successful
outcomes, so one broker's failure aborts the stage for the remaining
brokers. -/
theorem c8_iteration_error_boundaries (outcome : String → Except Unit Unit)
    (brokers : List String) (valuation : Except Unit Unit) :
    run_sync_worker_iteration true outcome brokers valuation = Except.error () ∧
    run_sync_worker_iteration false outcome brokers valuation =
      Except.ok (run_sync_worker_iteration_logic outcome brokers valuation) ∧
    (run_sync_worker_iteration_logic outcome brokers valuation).valuation_ran = true ∧
    (run_sync_worker_iteration_logic outcome brokers valuation).brokers_updated =
      brokers.takeWhile (okOutcome outcome) ∧
    (run_sync_worker_iteration_logic outcome brokers valuation).broker_stage_error_caught =
      !brokers.all (okOutcome outcome) := by
  refine ⟨rfl, rfl, rfl, ?_, ?_⟩ <;>
    simp [run_sync_worker_iteration_logic, run_broker_stage_eq]

/-- C9: in the valuation batch, each position is processed independently (the
head's result never changes how the tail is processed), a failure to fetch a
position's own price (exception or missing price) leaves that position
unmutated, the batch maps every position to exactly one result, and a single
terminal commit follows the full batch. -/
theorem c9_valuation_isolation (sc : SymbolClass) (o : PxOracle) (now : Nat)
    (position : Position) (ps positions : List Position)
    (hfail : o.get_latest_price position.broker position.symbol = Except.error () ∨
      o.get_latest_price position.broker position.symbol = Except.ok none) :
    (update_position_price sc o now position).1 = position ∧
    update_prices_and_volatility sc o now (position :: ps) =
      (update_position_price sc o now position).1 ::
        update_prices_and_volatility sc o now ps ∧
    (update_position_prices_and_volatility sc o now positions).1.length =
      positions.length ∧
    (update_position_prices_and_volatility sc o now positions).2.count
      SyncEvent.commit = 1 ∧
    (update_position_prices_and_volatility sc o now positions).2.getLast? =
      some SyncEvent.commit := by
  refine ⟨?_, rfl, ?_, ?_, ?_⟩
  · rcases hfail with h | h <;> simp [update_position_price, h]
  · simp [update_position_prices_and_volatility, update_prices_and_volatility_map]
  · simp [update_position_prices_and_volatility, List.count_append,
      processed_count_commit]
  · simp [update_position_prices_and_volatility, List.getLast?_concat]

/-- C9, witness: a concrete batch against an oracle whose fetches raise. -/
theorem c9_valuation_isolation_witness :
    (update_position_price scNone failingOracle 3
        ⟨0, "b", "S", "st", 1, 0, 0, 0, none, none⟩).1 =
      ⟨0, "b", "S", "st", 1, 0, 0, 0, none, none⟩ ∧
    update_prices_and_volatility scNone failingOracle 3
        [⟨0, "b", "S", "st", 1, 0, 0, 0, none, none⟩] =
      (update_position_price scNone failingOracle 3
          ⟨0, "b", "S", "st", 1, 0, 0, 0, none, none⟩).1 ::
        update_prices_and_volatility scNone failingOracle 3 [] ∧
    (update_position_prices_and_volatility scNone failingOracle 3
        [⟨0, "b", "S", "st", 1, 0, 0, 0, none, none⟩]).1.length = 1 ∧
    (update_position_prices_and_volatility scNone failingOracle 3
        [⟨0, "b", "S", "st", 1, 0, 0, 0, none, none⟩]).2.count SyncEvent.commit = 1 ∧
    (update_position_prices_and_volatility scNone failingOracle 3
        [⟨0, "b", "S", "st", 1, 0, 0, 0, none, none⟩]).2.getLast? =
      some SyncEvent.commit := by
  have h := c9_valuation_isolation scNone failingOracle 3
    ⟨0, "b", "S", "st", 1, 0, 0, 0, none, none⟩ []
    [⟨0, "b", "S", "st", 1, 0, 0, 0, none, none⟩] (Or.inl rfl)
  exact ⟨h.1, h.2.1, h.2.2.1, h.2.2.2.1, h.2.2.2.2⟩

/-! ## Profit/loss theorems -/

/-- C5 (amended): a buy trade whose matching position has negative quantity is
a short cover, full and partial alike, with
P/L = (costBasis / |positionQty| - executedPrice) * |tradeQty|; the per-share
cost uses the signed cost basis, not its absolute value. -/
theorem c5_short_cover (sc : SymbolClass) (db : List Position) (trade : Trade)
    (position : Position)
    (hside : lower trade.side = "buy")
    (hpos : get_position db trade.broker trade.symbol trade.strategy = some position)
    (hneg : position.quantity < 0) :
    calculate_profit_loss sc db trade =
      some ((position.cost_basis / |position.quantity| - trade.executed_price) *
        |trade.quantity|) := by
  simp [calculate_profit_loss, hside, hpos, hneg]

/-- C5, counterexample: a short position with cost basis -1000 and quantity
-100, covered by a buy of 50 at 12, yields -1100 in the code, while the
claim's formula with the absolute cost basis yields -100. -/
theorem c5_counterexample :
    calculate_profit_loss scNone [⟨0, "b", "S", "st", -100, 0, -1000, 0, none, none⟩]
        ⟨"b", "S", "st", "buy", 50, 12⟩ = some (-1100) ∧
    (|(-1000 : ℚ)| / |(-100 : ℚ)| - 12) * |(50 : ℚ)| = -100 ∧
    ¬ ((-1100 : ℚ) = -100) := by
  refine ⟨?_, by rw [abs_of_neg (by norm_num), abs_of_neg (by norm_num),
    abs_of_pos (by norm_num)]; norm_num, by norm_num⟩
  norm_num [calculate_profit_loss, get_position, calculatePartialProfitLoss, sell_base,
    scNone, lower_buy, abs_of_neg, abs_of_pos]

/-- C5, witness for the amended theorem at a concrete short cover. -/
theorem c5_short_cover_witness :
    calculate_profit_loss scNone [⟨0, "b", "S", "st", -100, 0, -1000, 0, none, none⟩]
        ⟨"b", "S", "st", "buy", 50, 12⟩ =
      some (((-1000 : ℚ) / |(-100 : ℚ)| - 12) * |(50 : ℚ)|) := by
  exact c5_short_cover scNone
    [⟨0, "b", "S", "st", -100, 0, -1000, 0, none, none⟩]
    ⟨"b", "S", "st", "buy", 50, 12⟩
    ⟨0, "b", "S", "st", -100, 0, -1000, 0, none, none⟩
    (by decide) (by decide) (by decide)

/-- C6 (amended): for a sell trade with a matching ledger position and a
symbol that is neither a futures contract nor an option (multiplier symbols
have the C7 adjustment applied on top of these formulas, so the returned
value differs there), an exact quantity match is a full close with
P/L = executedPrice * tradeQty - costBasis, and any other quantity (with a
nonzero position quantity, as the claim's division requires) is a partial
sell with P/L = (executedPrice - costBasis / positionQty) * tradeQty. -/
theorem c6_sell_formulas (sc : SymbolClass) (db : List Position) (trade : Trade)
    (position : Position)
    (hside : lower trade.side = "sell")
    (hpos : get_position db trade.broker trade.symbol trade.strategy = some position)
    (hfut : sc.is_futures_symbol trade.symbol = false)
    (hopt : sc.is_option trade.symbol = false) :
    (position.quantity = trade.quantity →
      calculate_profit_loss sc db trade =
        some (trade.executed_price * trade.quantity - position.cost_basis)) ∧
    (¬ position.quantity = trade.quantity → ¬ position.quantity = 0 →
      calculate_profit_loss sc db trade =
        some ((trade.executed_price - position.cost_basis / position.quantity) *
          trade.quantity)) := by
  constructor
  · intro heq
    simp [calculate_profit_loss, sell_base, hside, hpos, heq, hfut, hopt, sell_ne_buy]
  · intro hne hz
    simp [calculate_profit_loss, sell_base, calculatePartialProfitLoss, hside, hpos,
      hne, hz, hfut, hopt, sell_ne_buy]

/-- C6, witness: the spec's example, a 100-share position with cost basis
1000; the full sell at 12 yields 200, the partial sell of 50 yields 100. -/
theorem c6_sell_formulas_witness :
    calculate_profit_loss scNone [⟨0, "b", "S", "st", 100, 0, 1000, 0, none, none⟩]
        ⟨"b", "S", "st", "sell", 100, 12⟩ = some 200 ∧
    calculate_profit_loss scNone [⟨0, "b", "S", "st", 100, 0, 1000, 0, none, none⟩]
        ⟨"b", "S", "st", "sell", 50, 12⟩ = some 100 := by
  constructor
  · have h := (c6_sell_formulas scNone
      [⟨0, "b", "S", "st", 100, 0, 1000, 0, none, none⟩]
      ⟨"b", "S", "st", "sell", 100, 12⟩
      ⟨0, "b", "S", "st", 100, 0, 1000, 0, none, none⟩
      (by decide) (by decide) rfl rfl).1 (by norm_num)
    rw [h]; norm_num
  · have h := (c6_sell_formulas scNone
      [⟨0, "b", "S", "st", 100, 0, 1000, 0, none, none⟩]
      ⟨"b", "S", "st", "sell", 50, 12⟩
      ⟨0, "b", "S", "st", 100, 0, 1000, 0, none, none⟩
      (by decide) (by decide) rfl rfl).2 (by norm_num) (by norm_num)
    rw [h]; norm_num

/-- C6, counterexample: a full sell of an option position (100 shares, cost
basis 1000, executed at 12) returns (12 * 100 - 1000) * 100 = 20000, not the
claim's unadjusted executedPrice * tradeQty - costBasis = 200: the claim as
stated about the returned value fails for multiplier symbols. -/
theorem c6_counterexample :
    calculate_profit_loss scOpt [⟨0, "b", "OPT", "st", 100, 0, 1000, 0, none, none⟩]
        ⟨"b", "OPT", "st", "sell", 100, 12⟩ = some 20000 ∧
    ((12 : ℚ) * 100 - 1000) = 200 ∧
    ¬ ((20000 : ℚ) = 200) := by
  refine ⟨?_, by norm_num, by norm_num⟩
  norm_num [calculate_profit_loss, sell_base, get_position, calculatePartialProfitLoss,
    scOpt, OPTION_MULTIPLIER, lower_sell, sell_ne_buy, List.filter_cons, List.filter_nil]

/-- C7: the futures contract-size and the 100x option multiplier are applied
to the profit/loss after the base formula and only on sell trades: a sell's
result is the multiplier-free result mapped through the adjustment (contract
size first, then the option multiplier), while a buy - including a short
cover of a futures or option symbol - is identical with and without the
classifiers, hence receives no adjustment. -/
theorem c7_multiplier_on_sell_only (sc : SymbolClass) (db : List Position) (trade : Trade) :
    (lower trade.side = "sell" →
      calculate_profit_loss sc db trade =
        (calculate_profit_loss (plainClass sc) db trade).map
          (applyMultipliers sc trade.symbol)) ∧
    (lower trade.side = "buy" →
      calculate_profit_loss sc db trade =
        calculate_profit_loss (plainClass sc) db trade) := by
  constructor
  · intro hside
    cases hb : sell_base db trade with
    | none => simp [calculate_profit_loss, hside, hb, sell_ne_buy, plainClass]
    | some pl =>
      simp [calculate_profit_loss, hside, hb, sell_ne_buy, plainClass, applyMultipliers]
  · intro hside
    simp [calculate_profit_loss, hside, plainClass]

/-- C7, witness: an option symbol, on a concrete sell and a concrete buy-side
short cover. -/
theorem c7_multiplier_on_sell_only_witness :
    calculate_profit_loss scOpt [⟨0, "b", "OPT", "st", 100, 0, 1000, 0, none, none⟩]
        ⟨"b", "OPT", "st", "sell", 100, 12⟩ =
      (calculate_profit_loss (plainClass scOpt)
          [⟨0, "b", "OPT", "st", 100, 0, 1000, 0, none, none⟩]
          ⟨"b", "OPT", "st", "sell", 100, 12⟩).map
        (applyMultipliers scOpt "OPT") ∧
    calculate_profit_loss scOpt [⟨0, "b", "OPT", "st", -100, 0, 1000, 0, none, none⟩]
        ⟨"b", "OPT", "st", "buy", 50, 12⟩ =
      calculate_profit_loss (plainClass scOpt)
        [⟨0, "b", "OPT", "st", -100, 0, 1000, 0, none, none⟩]
        ⟨"b", "OPT", "st", "buy", 50, 12⟩ :=
  ⟨(c7_multiplier_on_sell_only scOpt _ _).1 (by decide),
   (c7_multiplier_on_sell_only scOpt _ _).2 (by decide)⟩

/-! ## Reconciliation lemmas -/

theorem dictInsert_forall {P : String × Position → Prop} {d : List (String × Position)}
    {k : String} {v : Position} (hd : ∀ kv ∈ d, P kv) (hkv : P (k, v)) :
    ∀ kv ∈ dictInsert d k v, P kv := by
  intro kv hmem
  unfold dictInsert at hmem
  split at hmem
  · rcases List.mem_map.mp hmem with ⟨kv0, hkv0, heq⟩
    by_cases h : kv0.1 = k
    · rw [if_pos h] at heq; exact heq ▸ hkv
    · rw [if_neg h] at heq; exact heq ▸ hd kv0 hkv0
  · rcases List.mem_append.mp hmem with h | h
    · exact hd kv h
    · have h2 := List.mem_singleton.mp h
      subst h2; exact hkv

theorem keys_map_replace (d : List (String × Position)) (k : String) (v : Position) :
    (d.map (fun kv => if kv.1 = k then (k, v) else kv)).map Prod.fst = d.map Prod.fst := by
  rw [List.map_map]
  apply List.map_congr_left
  intro kv _
  by_cases hk : kv.1 = k <;> simp [hk, Function.comp]

theorem mem_keys_dictInsert {d : List (String × Position)} {k : String} {v : Position}
    {s : String} :
    s ∈ (dictInsert d k v).map Prod.fst ↔ s ∈ d.map Prod.fst ∨ s = k := by
  by_cases hany : d.any (fun kv => decide (kv.1 = k)) = true
  · rw [dictInsert, if_pos hany, keys_map_replace]
    constructor
    · exact Or.inl
    · rintro (hs | rfl)
      · exact hs
      · rcases List.any_eq_true.mp hany with ⟨kv, hkv, hpred⟩
        exact List.mem_map.mpr ⟨kv, hkv, of_decide_eq_true hpred⟩
  · rw [dictInsert, if_neg hany]
    simp

theorem nodup_keys_dictInsert {d : List (String × Position)} {k : String} {v : Position}
    (h : (d.map Prod.fst).Nodup) : ((dictInsert d k v).map Prod.fst).Nodup := by
  by_cases hany : d.any (fun kv => decide (kv.1 = k)) = true
  · rw [dictInsert, if_pos hany, keys_map_replace]; exact h
  · rw [dictInsert, if_neg hany, List.map_append]
    have hk : k ∉ d.map Prod.fst := by
      intro hmem
      rcases List.mem_map.mp hmem with ⟨kv, hkv, hfst⟩
      exact hany (List.any_eq_true.mpr ⟨kv, hkv, decide_eq_true hfst⟩)
    simp [List.nodup_append, h, hk]

theorem foldl_dictInsert_forall {P : String × Position → Prop} :
    ∀ (l : List Position) (d : List (String × Position)),
      (∀ kv ∈ d, P kv) → (∀ p ∈ l, P (p.symbol, p)) →
      ∀ kv ∈ l.foldl (fun d p => dictInsert d p.symbol p) d, P kv := by
  intro l
  induction l with
  | nil => intro d hd _ kv hkv; exact hd kv hkv
  | cons p ps ih =>
    intro d hd hl kv hkv
    exact ih (dictInsert d p.symbol p)
      (dictInsert_forall hd (hl p (List.mem_cons_self p ps)))
      (fun q hq => hl q (List.mem_cons_of_mem p hq)) kv hkv

theorem foldl_dictInsert_nodup :
    ∀ (l : List Position) (d : List (String × Position)),
      (d.map Prod.fst).Nodup →
      ((l.foldl (fun d p => dictInsert d p.symbol p) d).map Prod.fst).Nodup := by
  intro l
  induction l with
  | nil => intro d hd; exact hd
  | cons p ps ih => intro d hd; exact ih _ (nodup_keys_dictInsert hd)

theorem foldl_dictInsert_keys_mono :
    ∀ (l : List Position) (d : List (String × Position)) (s : String),
      s ∈ d.map Prod.fst →
      s ∈ (l.foldl (fun d p => dictInsert d p.symbol p) d).map Prod.fst := by
  intro l
  induction l with
  | nil => intro d s hs; exact hs
  | cons p ps ih =>
    intro d s hs
    exact ih _ s (mem_keys_dictInsert.mpr (Or.inl hs))

theorem foldl_dictInsert_keys_complete :
    ∀ (l : List Position) (d : List (String × Position)) (p : Position), p ∈ l →
      p.symbol ∈ (l.foldl (fun d p => dictInsert d p.symbol p) d).map Prod.fst := by
  intro l
  induction l with
  | nil => intro d p hp; cases hp
  | cons q qs ih =>
    intro d p hp
    rcases List.mem_cons.mp hp with rfl | hp
    · exact foldl_dictInsert_keys_mono qs _ _ (mem_keys_dictInsert.mpr (Or.inr rfl))
    · exact ih _ p hp

theorem fetch_db_positions_forall (db : List Position) (broker : String) :
    ∀ kv ∈ fetch_db_positions db broker,
      kv.2.symbol = kv.1 ∧ kv.2.broker = broker ∧ kv.2 ∈ db := by
  apply foldl_dictInsert_forall
  · intro kv h; cases h
  · intro p hp
    have h := List.mem_filter.mp hp
    exact ⟨rfl, of_decide_eq_true h.2, h.1⟩

theorem fetch_keys_nodup (db : List Position) (broker : String) :
    ((fetch_db_positions db broker).map Prod.fst).Nodup :=
  foldl_dictInsert_nodup _ [] (by simp)

theorem fetch_keys_complete (db : List Position) (broker : String) (p : Position)
    (hp : p ∈ db) (hb : p.broker = broker) :
    p.symbol ∈ (fetch_db_positions db broker).map Prod.fst := by
  apply foldl_dictInsert_keys_complete
  exact List.mem_filter.mpr ⟨hp, decide_eq_true hb⟩

theorem alookupQ_mem {bps : List (String × ℚ)} {s : String}
    (h : ¬ alookupQ bps s = none) : ∃ x ∈ bps, x.1 = s := by
  unfold alookupQ at h
  cases hf : bps.find? (fun kv => decide (kv.1 = s)) with
  | none => rw [hf] at h; simp at h
  | some kv =>
    have hp := List.find?_some hf
    exact ⟨kv, List.mem_of_find?_eq_some hf, by simpa using hp⟩

theorem get_categorized_quantity_zero {d : List (String × Position)} {symbol : String}
    (h : ∀ kv ∈ d, ¬ kv.2.symbol = symbol) :
    get_categorized_quantity d symbol = 0 := by
  unfold get_categorized_quantity
  rw [List.filter_eq_nil_iff.mpr ?_]
  · rfl
  · intro pos hpos
    rcases List.mem_map.mp hpos with ⟨kv, hkv, rfl⟩
    simp [h kv hkv]

theorem get_categorized_quantity_characterization :
    ∀ (d : List (String × Position)) (symbol : String),
      (∀ kv ∈ d, kv.2.symbol = kv.1) → (d.map Prod.fst).Nodup →
      get_categorized_quantity d symbol =
        (match alookupP d symbol with
         | some p => if p.strategy = "uncategorized" then 0 else p.quantity
         | none => 0) := by
  intro d
  induction d with
  | nil => intro symbol _ _; rfl
  | cons kv rest ih =>
    intro symbol hwf hnd
    have hsym : kv.2.symbol = kv.1 := hwf kv (List.mem_cons_self kv rest)
    have hwfr : ∀ kv' ∈ rest, kv'.2.symbol = kv'.1 :=
      fun kv' h => hwf kv' (List.mem_cons_of_mem _ h)
    have hnd' := hnd
    rw [List.map_cons, List.nodup_cons] at hnd'
    by_cases hk : kv.1 = symbol
    · have hrest0 : get_categorized_quantity rest symbol = 0 := by
        apply get_categorized_quantity_zero
        intro kv' hkv' he
        rw [hwfr kv' hkv'] at he
        apply hnd'.1
        rw [hk, ← he]
        exact List.mem_map_of_mem Prod.fst hkv'
      have hl : alookupP (kv :: rest) symbol = some kv.2 := by
        simp [alookupP, List.find?_cons, hk]
      rw [hl]
      show get_categorized_quantity (kv :: rest) symbol =
        if kv.2.strategy = "uncategorized" then 0 else kv.2.quantity
      unfold get_categorized_quantity
      rw [List.map_cons, List.filter_cons]
      by_cases hu : kv.2.strategy = "uncategorized"
      · rw [if_neg (by simp [hu]), if_pos hu]
        exact hrest0
      · rw [if_pos (by simp [hsym, hk, hu]), if_neg hu, List.map_cons, List.sum_cons]
        have h0 := hrest0
        unfold get_categorized_quantity at h0
        rw [h0, add_zero]
    · have hl : alookupP (kv :: rest) symbol = alookupP rest symbol := by
        simp [alookupP, List.find?_cons, hk]
      rw [hl]
      unfold get_categorized_quantity
      rw [List.map_cons, List.filter_cons, if_neg (by simp [hsym, hk])]
      have h1 := ih symbol hwfr hnd'.2
      unfold get_categorized_quantity at h1
      exact h1

/-- C10: _fetch_db_positions keys the ledger dict by symbol alone, so its
keys are pairwise distinct (at most one coexisting strategy row per symbol is
visible to the shrink, prune and grow passes), and the categorized-quantity
sum computed by the shrink pass collapses to the single dict entry of that
symbol - it is that row's quantity when the row is categorized, and 0
otherwise; it is never a sum across several coexisting strategy rows. -/
theorem c10_symbol_keyed_fetch (db : List Position) (broker symbol : String) :
    ((fetch_db_positions db broker).map Prod.fst).Nodup ∧
    get_categorized_quantity (fetch_db_positions db broker) symbol =
      (match alookupP (fetch_db_positions db broker) symbol with
       | some p => if p.strategy = "uncategorized" then 0 else p.quantity
       | none => 0) :=
  ⟨fetch_keys_nodup db broker,
   get_categorized_quantity_characterization _ symbol
     (fun kv h => (fetch_db_positions_forall db broker kv h).1)
     (fetch_keys_nodup db broker)⟩

/-- C3: the failing input of the claim's scenario, evaluated. With the broker
reporting quantity 100 for SYM, a categorized row of 60 and an uncategorized
row of 50, the symbol-keyed dict hides the categorized row, so the shrink
pass computes categorizedQty = 0, netBrokerQty = 100, and does not clamp;
the grow pass then overwrites the surviving (uncategorized) dict row with the
broker quantity. The uncategorized row ends at 100, not at the 40 the claim
(and the helper docstrings) intend. -/
theorem c3_shrink_pass_failing_input :
    ((reconcile_positions "b" [("SYM", 100)]
        [⟨0, "b", "SYM", "alpha", 60, 0, 0, 0, none, none⟩,
         ⟨1, "b", "SYM", "uncategorized", 50, 0, 0, 0, none, none⟩] 7).filter
      (fun p => decide (p.strategy = "uncategorized"))).map (fun p => p.quantity) = [100] ∧
    ¬ ((100 : ℚ) = 40) := by
  constructor
  · norm_num [reconcile_positions, fetch_db_positions, dictInsert,
      remove_excess_uncategorized_positions, shrinkStep, alookupP, alookupQ,
      get_categorized_quantity, calculate_net_broker_quantity, setQuantityById,
      dictSetQuantity, remove_db_positions, symbols_to_remove, add_missing_positions,
      update_existing_position, max_def, List.filter_cons, List.filter_nil,
      List.map_cons, List.map_nil, List.foldl_cons, List.foldl_nil, List.find?_cons,
      List.find?_nil, List.any_cons, List.any_nil, Option.some_ne_none,
      show ¬ ("alpha" : String) = "uncategorized" from by decide]
  · norm_num

/-! ## Reconcile row-descent lemmas -/

theorem rowFrom_refl (p : Position) : RowFrom p p :=
  ⟨rfl, rfl, rfl, rfl, Or.inl rfl⟩

theorem rowFrom_trans {p q r : Position} (h1 : RowFrom p q) (h2 : RowFrom q r) :
    RowFrom p r := by
  obtain ⟨a1, b1, c1, d1, e1⟩ := h1
  obtain ⟨a2, b2, c2, d2, e2⟩ := h2
  refine ⟨a1.trans a2, b1.trans b2, c1.trans c2, d1.trans d2, ?_⟩
  rcases e1 with e1 | e1
  · rcases e2 with e2 | e2
    · exact Or.inl (e1.trans e2)
    · exact Or.inr (e1 ▸ e2)
  · exact Or.inr e1

theorem growFrom_refl (bps : List (String × ℚ)) (p : Position) : GrowFrom bps p p :=
  ⟨rfl, rfl, rfl, rfl, Or.inl rfl⟩

theorem shrinkStep_rows (bps : List (String × ℚ))
    (st : List Position × List (String × Position)) (key : String) :
    ∀ p ∈ (shrinkStep bps st key).1, ∃ q ∈ st.1, RowFrom p q := by
  intro p hp
  unfold shrinkStep at hp
  split at hp
  · exact ⟨p, hp, rowFrom_refl p⟩
  · split at hp
    · split at hp
      · exact ⟨p, (List.mem_filter.mp hp).1, rowFrom_refl p⟩
      · simp only [] at hp
        split at hp
        · rcases List.mem_map.mp hp with ⟨q, hq, hpe⟩
          split at hpe
          · subst hpe
            exact ⟨q, hq, rfl, rfl, rfl, rfl,
              Or.inr (by unfold calculate_net_broker_quantity; exact le_max_right _ 0)⟩
          · subst hpe
            exact ⟨q, hq, rowFrom_refl q⟩
        · exact ⟨p, hp, rowFrom_refl p⟩
    · exact ⟨p, hp, rowFrom_refl p⟩

theorem shrink_rows (bps : List (String × ℚ)) :
    ∀ (ks : List String) (st : List Position × List (String × Position))
      (p : Position), p ∈ (remove_excess_uncategorized_positions bps ks st).1 →
      ∃ q ∈ st.1, RowFrom p q := by
  intro ks
  induction ks with
  | nil => intro st p hp; exact ⟨p, hp, rowFrom_refl p⟩
  | cons k ks ih =>
    intro st p hp
    rcases ih (shrinkStep bps st k) p hp with ⟨q, hq, hpq⟩
    rcases shrinkStep_rows bps st k q hq with ⟨r, hr, hqr⟩
    exact ⟨r, hr, rowFrom_trans hpq hqr⟩

theorem update_existing_rows {db : List Position} {i : Nat} {bq : ℚ} {now : Nat} :
    ∀ p ∈ update_existing_position db i bq now, ∃ q ∈ db,
      p.id = q.id ∧ p.broker = q.broker ∧ p.symbol = q.symbol ∧ p.strategy = q.strategy ∧
        (p.quantity = q.quantity ∨ p.quantity = bq) := by
  intro p hp
  rcases List.mem_map.mp hp with ⟨q, hq, hpe⟩
  by_cases hid : q.id = i
  · rw [if_pos hid] at hpe
    subst hpe
    exact ⟨q, hq, rfl, rfl, rfl, rfl, Or.inr rfl⟩
  · rw [if_neg hid] at hpe
    subst hpe
    exact ⟨q, hq, rfl, rfl, rfl, rfl, Or.inl rfl⟩

theorem add_missing_rows (d : List (String × Position)) (now : Nat)
    (bps : List (String × ℚ)) :
    ∀ (l : List (String × ℚ)) (db : List Position), (∀ x ∈ l, x ∈ bps) →
      ∀ p ∈ add_missing_positions db d now l, ∃ q ∈ db, GrowFrom bps p q := by
  intro l
  induction l with
  | nil =>
    intro db _ p hp
    exact ⟨p, hp, growFrom_refl bps p⟩
  | cons x rest ih =>
    intro db hsub p hp
    unfold add_missing_positions at hp
    cases halo : alookupP d x.1 with
    | some existing_position =>
      rw [halo] at hp
      have hp' : p ∈ add_missing_positions
          (update_existing_position db existing_position.id x.2 now) d now rest := hp
      rcases ih _ (fun y hy => hsub y (List.mem_cons_of_mem x hy)) p hp' with ⟨q1, hq1, hG⟩
      rcases update_existing_rows q1 hq1 with ⟨q, hq, hf1, hf2, hf3, hf4, hf5⟩
      obtain ⟨hGid, hGb, hGs, hGst, hGq⟩ := hG
      refine ⟨q, hq, hGid.trans hf1, hGb.trans hf2, hGs.trans hf3, hGst.trans hf4, ?_⟩
      rcases hGq with h | ⟨y, hy, hye⟩
      · rcases hf5 with h2 | h2
        · exact Or.inl ((h.trans h2))
        · exact Or.inr ⟨x, hsub x (List.mem_cons_self x rest), h.trans h2⟩
      · exact Or.inr ⟨y, hy, hye⟩
    | none =>
      rw [halo] at hp
      have hp' : p ∈ add_missing_positions db d now rest := hp
      exact ih db (fun y hy => hsub y (List.mem_cons_of_mem x hy)) p hp'

theorem mem_symbols_to_remove {d : List (String × Position)} {bps : List (String × ℚ)}
    {s : String} :
    s ∈ symbols_to_remove d bps ↔ s ∈ d.map Prod.fst ∧ alookupQ bps s = none := by
  simp [symbols_to_remove, List.mem_filter]

theorem mem_remove_db_positions {db : List Position} {broker : String}
    {d : List (String × Position)} {bps : List (String × ℚ)} {p : Position} :
    p ∈ remove_db_positions db broker d bps ↔
      p ∈ db ∧ ¬ (p.broker = broker ∧ p.symbol ∈ symbols_to_remove d bps) := by
  simp [remove_db_positions, List.mem_filter, not_and, imp_iff_not_or]

/-- C4 (amended): after reconcile(broker), every ledger symbol of that broker
is present in the broker's position set - unconditionally, for every
broker-reported map and ledger state; and provided the broker reports no
negative quantity and the ledger held none before, no ledger position ends
with a negative quantity. (The unconditional nonnegativity of the original
claim fails when the broker itself reports a short position, whose quantity
the grow pass copies verbatim; see the counterexample.) -/
theorem c4_reconcile_integrity (broker : String) (bps : List (String × ℚ))
    (db : List Position) (now : Nat) :
    ∀ p ∈ reconcile_positions broker bps db now,
      ((∀ x ∈ bps, 0 ≤ x.2) → (∀ q ∈ db, 0 ≤ q.quantity) → 0 ≤ p.quantity) ∧
      (p.broker = broker → ∃ x ∈ bps, x.1 = p.symbol) := by
  intro p hp
  simp only [reconcile_positions] at hp
  rcases add_missing_rows _ now bps bps _ (fun x hx => hx) p hp with ⟨q, hq2, hG⟩
  rw [mem_remove_db_positions] at hq2
  obtain ⟨hq1, hqnot⟩ := hq2
  rcases shrink_rows bps _ _ q hq1 with ⟨r, hr, hR⟩
  obtain ⟨hRid, hRb, hRs, hRst, hRq⟩ := hR
  obtain ⟨hGid, hGb, hGs, hGst, hGq⟩ := hG
  constructor
  · intro hbq hdb
    rcases hGq with h | ⟨x, hx, hxe⟩
    · rcases hRq with h2 | h2
      · rw [h, h2]; exact hdb r hr
      · rw [h]; exact h2
    · rw [hxe]; exact hbq x hx
  · intro hpb
    have hqb : q.broker = broker := by rw [← hGb]; exact hpb
    have hrb : r.broker = broker := by rw [← hRb]; exact hqb
    have hsymkeys : q.symbol ∈ (fetch_db_positions db broker).map Prod.fst := by
      rw [hRs]
      exact fetch_keys_complete db broker r hr hrb
    have hnotrem : ¬ q.symbol ∈ symbols_to_remove (fetch_db_positions db broker) bps :=
      fun hmem => hqnot ⟨hqb, hmem⟩
    have hne : ¬ alookupQ bps q.symbol = none := by
      intro hnone
      exact hnotrem (mem_symbols_to_remove.mpr ⟨hsymkeys, hnone⟩)
    rcases alookupQ_mem hne with ⟨x, hx, hxs⟩
    exact ⟨x, hx, hxs.trans hGs.symm⟩

/-- C4, counterexample: the broker reports a short quantity (-5) for S; the
grow pass copies it into the ledger, so after reconcile the ledger holds a
negative quantity, contradicting the claim's unconditional nonnegativity. -/
theorem c4_counterexample :
    (reconcile_positions "b" [("S", -5)]
        [⟨0, "b", "S", "alpha", 3, 0, 0, 0, none, none⟩] 1).map
      (fun p => p.quantity) = [-5] ∧
    ¬ ((0 : ℚ) ≤ -5) := by
  constructor
  · norm_num [reconcile_positions, fetch_db_positions, dictInsert,
      remove_excess_uncategorized_positions, shrinkStep, alookupP, alookupQ,
      get_categorized_quantity, calculate_net_broker_quantity, setQuantityById,
      dictSetQuantity, remove_db_positions, symbols_to_remove, add_missing_positions,
      update_existing_position, max_def, List.filter_cons, List.filter_nil,
      List.map_cons, List.map_nil, List.foldl_cons, List.foldl_nil, List.find?_cons,
      List.find?_nil, List.any_cons, List.any_nil, Option.some_ne_none,
      show ¬ ("alpha" : String) = "uncategorized" from by decide]
  · norm_num

/-- C4, witness for the amended theorem at a concrete reconciliation,
discharging the nonnegativity conjunct's hypotheses there. -/
theorem c4_reconcile_integrity_witness :
    (0 : ℚ) ≤ (⟨0, "b", "S", "alpha", (2 : ℚ), 0, 0, 1, none, none⟩ : Position).quantity ∧
    ((⟨0, "b", "S", "alpha", (2 : ℚ), 0, 0, 1, none, none⟩ : Position).broker = "b" →
      ∃ x ∈ [("S", (2 : ℚ))],
        x.1 = (⟨0, "b", "S", "alpha", (2 : ℚ), 0, 0, 1, none, none⟩ : Position).symbol) := by
  have hmem : (⟨0, "b", "S", "alpha", (2 : ℚ), 0, 0, 1, none, none⟩ : Position) ∈
      reconcile_positions "b" [("S", 2)]
        [⟨0, "b", "S", "alpha", 1, 0, 0, 0, none, none⟩] 1 := by
    norm_num [reconcile_positions, fetch_db_positions, dictInsert,
      remove_excess_uncategorized_positions, shrinkStep, alookupP, alookupQ,
      get_categorized_quantity, calculate_net_broker_quantity, setQuantityById,
      dictSetQuantity, remove_db_positions, symbols_to_remove, add_missing_positions,
      update_existing_position, max_def, List.filter_cons, List.filter_nil,
      List.map_cons, List.map_nil, List.foldl_cons, List.foldl_nil, List.find?_cons,
      List.find?_nil, List.any_cons, List.any_nil, Option.some_ne_none,
      show ¬ ("alpha" : String) = "uncategorized" from by decide]
  have h := c4_reconcile_integrity "b" [("S", 2)]
    [⟨0, "b", "S", "alpha", 1, 0, 0, 0, none, none⟩] 1 _ hmem
  exact ⟨h.1
    (by intro x hx; have h2 := List.mem_singleton.mp hx; subst h2; norm_num)
    (by intro q hq; have h2 := List.mem_singleton.mp hq; subst h2; norm_num),
    h.2⟩

/-! ## Balance derivation: positions balance (C1) -/

/-- C1 (amended): the positions balance is the sum over the strategy's
positions of price * quantity for plain symbols, but for an option symbol
each position contributes price * quantity^2 * 100 and for a futures symbol
price * quantity^2 * contractSize: the source multiplies the price by
quantity inside the multiplier branch and then by quantity again, so
quantity enters the product twice, not once. -/
theorem c1_positions_balance_quantity_twice (sc : SymbolClass)
    (prices : String → String → ℚ) (pdb : List Position) (broker strategy : String) :
    calculate_positions_balance sc prices pdb broker strategy =
      ((pdb.filter (fun p => decide (p.broker = broker ∧ p.strategy = strategy))).map
        (fun p =>
          if sc.is_option p.symbol then
            prices broker p.symbol * p.quantity * p.quantity * 100
          else if sc.is_futures_symbol p.symbol then
            prices broker p.symbol * p.quantity * p.quantity * sc.futures_contract_size p.symbol
          else prices broker p.symbol * p.quantity)).sum := by
  unfold calculate_positions_balance
  congr 1
  apply List.map_congr_left
  intro p _
  split_ifs with h1 h2 <;> ring

/-- C1, counterexample: one option position with price 5 and quantity 2. The
code computes (5 * 2 * 100) * 2 = 2000; the claim's formula
price * quantity * 100 (quantity exactly once) gives 1000. -/
theorem c1_counterexample :
    calculate_positions_balance scOpt (fun _ _ => 5)
        [⟨0, "b", "OPT", "alpha", 2, 0, 0, 0, none, none⟩] "b" "alpha" = 2000 ∧
    claimPositionsBalance scOpt (fun _ _ => 5)
        [⟨0, "b", "OPT", "alpha", 2, 0, 0, 0, none, none⟩] "b" "alpha" = 1000 ∧
    ¬ ((2000 : ℚ) = 1000) := by
  refine ⟨?_, ?_, by norm_num⟩
  · norm_num [calculate_positions_balance, scOpt, List.filter_cons, List.filter_nil,
      List.map_cons, List.map_nil]
  · norm_num [claimPositionsBalance, scOpt, List.filter_cons, List.filter_nil,
      List.map_cons, List.map_nil]

/-! ## Balance derivation: latest-row lemmas (C2) -/

theorem pickLatest_foldl_mem :
    ∀ (l : List Balance) (acc : Option Balance) (x : Balance),
      l.foldl pickLatest acc = some x → x ∈ l ∨ acc = some x := by
  intro l
  induction l with
  | nil => intro acc x h; exact Or.inr h
  | cons r rest ih =>
    intro acc x h
    rcases ih (pickLatest acc r) x h with hx | hx
    · exact Or.inl (List.mem_cons_of_mem r hx)
    · cases acc with
      | none =>
        have h2 : r = x := by simpa [pickLatest] using hx
        exact Or.inl (h2 ▸ List.mem_cons_self r rest)
      | some y =>
        change (if y.timestamp ≤ r.timestamp then some r else some y) = some x at hx
        by_cases hc : y.timestamp ≤ r.timestamp
        · rw [if_pos hc] at hx
          have h2 : r = x := by simpa using hx
          exact Or.inl (h2 ▸ List.mem_cons_self r rest)
        · rw [if_neg hc] at hx
          exact Or.inr hx

theorem pickLatest_append_latest (l : List Balance) (r0 : Balance) (t : Nat)
    (hl : ∀ r ∈ l, r.timestamp < t) (h0 : r0.timestamp = t) :
    (l ++ [r0]).foldl pickLatest none = some r0 := by
  rw [List.foldl_append]
  cases h : l.foldl pickLatest none with
  | none => simp [pickLatest]
  | some y =>
    rcases pickLatest_foldl_mem l none y h with hy | hy
    · have hle : y.timestamp ≤ r0.timestamp := by
        rw [h0]; exact le_of_lt (hl y hy)
      simp [pickLatest, hle]
    · simp at hy

theorem balFilter_eq_true {broker strategy btype : String} {r : Balance} :
    balFilter broker strategy btype r = true ↔
      r.broker = broker ∧ r.strategy = strategy ∧ r.type = btype := by
  simp [balFilter]

theorem latestBalance_shape (db : List Balance) (broker strategy btype : String)
    (ex : List Balance) (r0 : Balance) (t : Nat)
    (hts : ∀ r ∈ db, r.timestamp < t) (h0 : r0.timestamp = t)
    (hfil : ex.filter (balFilter broker strategy btype) =
      db.filter (balFilter broker strategy btype) ++ [r0]) :
    latestBalance ex broker strategy btype = some r0 := by
  unfold latestBalance
  rw [hfil]
  apply pickLatest_append_latest _ _ t _ h0
  intro r hr
  exact hts r (List.mem_of_mem_filter hr)

theorem latestBalance_append_nonmatch (db ex : List Balance) (broker strategy btype : String)
    (hex : ∀ r ∈ ex, ¬ balFilter broker strategy btype r = true) :
    latestBalance (db ++ ex) broker strategy btype = latestBalance db broker strategy btype := by
  unfold latestBalance
  rw [List.filter_append, List.filter_eq_nil_iff.mpr hex, List.append_nil]

theorem mkRows_filter_ne_strategy {broker strategy : String} {c p : ℚ} {t : Nat}
    {b' s' ty : String} (h : ¬ strategy = s') :
    (mkRows broker strategy c p t).filter (balFilter b' s' ty) = [] := by
  simp [mkRows, balFilter, List.filter_cons, List.filter_nil, h]

theorem mkRows_filter_cash (broker strategy : String) (c p : ℚ) (t : Nat) :
    (mkRows broker strategy c p t).filter (balFilter broker strategy "cash") =
      [⟨broker, strategy, "cash", c, t⟩] := by
  simp [mkRows, balFilter, List.filter_cons, List.filter_nil,
    show ¬ ("positions" : String) = "cash" from by decide,
    show ¬ ("total" : String) = "cash" from by decide]

theorem mkRows_filter_positions (broker strategy : String) (c p : ℚ) (t : Nat) :
    (mkRows broker strategy c p t).filter (balFilter broker strategy "positions") =
      [⟨broker, strategy, "positions", p, t⟩] := by
  simp [mkRows, balFilter, List.filter_cons, List.filter_nil,
    show ¬ ("cash" : String) = "positions" from by decide,
    show ¬ ("total" : String) = "positions" from by decide]

theorem mkRows_filter_total (broker strategy : String) (c p : ℚ) (t : Nat) :
    (mkRows broker strategy c p t).filter (balFilter broker strategy "total") =
      [⟨broker, strategy, "total", c + p, t⟩] := by
  simp [mkRows, balFilter, List.filter_cons, List.filter_nil,
    show ¬ ("cash" : String) = "total" from by decide,
    show ¬ ("positions" : String) = "total" from by decide]

theorem mkRows_mem {broker strategy : String} {c p : ℚ} {t : Nat} {r : Balance}
    (h : r ∈ mkRows broker strategy c p t) :
    r.broker = broker ∧ r.strategy = strategy ∧ r.timestamp = t := by
  simp [mkRows] at h
  rcases h with rfl | rfl | rfl <;> exact ⟨rfl, rfl, rfl⟩

theorem concatRows_filter_eq_nil {f : String → List Balance} {pred : Balance → Bool} :
    ∀ l : List String, (∀ s ∈ l, (f s).filter pred = []) →
      (concatRows f l).filter pred = [] := by
  intro l
  induction l with
  | nil => intro _; rfl
  | cons s rest ih =>
    intro h
    simp only [concatRows]
    rw [List.filter_append, h s (List.mem_cons_self s rest),
      ih (fun s' hs' => h s' (List.mem_cons_of_mem s hs')), List.append_nil]

theorem concatRows_filter_single {f : String → List Balance} {pred : Balance → Bool}
    {s : String} :
    ∀ l : List String, l.Nodup → s ∈ l →
      (∀ s' ∈ l, ¬ s' = s → (f s').filter pred = []) →
      (concatRows f l).filter pred = (f s).filter pred := by
  intro l
  induction l with
  | nil => intro _ hs; cases hs
  | cons s0 rest ih =>
    intro hnd hs hother
    rw [List.nodup_cons] at hnd
    simp only [concatRows]
    rw [List.filter_append]
    rcases List.mem_cons.mp hs with rfl | hs'
    · rw [concatRows_filter_eq_nil rest ?_, List.append_nil]
      intro s' hs'
      exact hother s' (List.mem_cons_of_mem _ hs') (fun he => hnd.1 (he ▸ hs'))
    · rw [hother s0 (List.mem_cons_self _ _) (fun he => hnd.1 (by rw [he]; exact hs')),
        List.nil_append]
      exact ih hnd.2 hs' (fun s' h1 h2 => hother s' (List.mem_cons_of_mem _ h1) h2)

theorem concatRows_congr {f g : String → List Balance} :
    ∀ l : List String, (∀ s ∈ l, f s = g s) → concatRows f l = concatRows g l := by
  intro l
  induction l with
  | nil => intro _; rfl
  | cons s rest ih =>
    intro h
    simp only [concatRows]
    rw [h s (List.mem_cons_self s rest),
      ih (fun s' hs' => h s' (List.mem_cons_of_mem s hs'))]

theorem concatRows_mem {f : String → List Balance} {r : Balance} :
    ∀ l : List String, r ∈ concatRows f l → ∃ s ∈ l, r ∈ f s := by
  intro l
  induction l with
  | nil => intro h; cases h
  | cons s rest ih =>
    intro h
    rcases List.mem_append.mp (by simpa only [concatRows] using h) with h1 | h1
    · exact ⟨s, List.mem_cons_self s rest, h1⟩
    · rcases ih h1 with ⟨s', hs', hr⟩
      exact ⟨s', List.mem_cons_of_mem s hs', hr⟩

theorem update_strategy_balance_eq (sc : SymbolClass) (prices : String → String → ℚ)
    (pdb : List Position) (db : List Balance) (broker strategy : String) (t : Nat) :
    update_strategy_balance sc prices pdb db broker strategy t =
      db ++ strategyRows sc prices pdb db broker t strategy := by
  simp [update_strategy_balance, insert_or_update_balance, strategyRows, mkRows]

/-! ## SELECT DISTINCT lemmas -/

theorem dedupFirst_foldl_mem :
    ∀ (l : List String) (acc : List String) (x : String),
      x ∈ l.foldl (fun acc y => if y ∈ acc then acc else acc ++ [y]) acc ↔
        x ∈ acc ∨ x ∈ l := by
  intro l
  induction l with
  | nil => intro acc x; simp
  | cons y rest ih =>
    intro acc x
    rw [List.foldl_cons]
    by_cases hy : y ∈ acc
    · rw [if_pos hy, ih]
      constructor
      · rintro (h | h)
        · exact Or.inl h
        · exact Or.inr (List.mem_cons_of_mem y h)
      · rintro (h | h)
        · exact Or.inl h
        · rcases List.mem_cons.mp h with rfl | h
          · exact Or.inl hy
          · exact Or.inr h
    · rw [if_neg hy, ih]
      constructor
      · rintro (h | h)
        · rcases List.mem_append.mp h with h2 | h2
          · exact Or.inl h2
          · exact Or.inr (List.mem_cons.mpr (Or.inl (List.mem_singleton.mp h2)))
        · exact Or.inr (List.mem_cons_of_mem y h)
      · rintro (h | h)
        · exact Or.inl (List.mem_append.mpr (Or.inl h))
        · rcases List.mem_cons.mp h with rfl | h2
          · exact Or.inl (List.mem_append.mpr (Or.inr (List.mem_singleton.mpr rfl)))
          · exact Or.inr h2

theorem dedupFirst_mem {l : List String} {x : String} : x ∈ dedupFirst l ↔ x ∈ l := by
  unfold dedupFirst
  rw [dedupFirst_foldl_mem]
  simp

theorem dedupFirst_foldl_nodup :
    ∀ (l : List String) (acc : List String), acc.Nodup →
      (l.foldl (fun acc y => if y ∈ acc then acc else acc ++ [y]) acc).Nodup := by
  intro l
  induction l with
  | nil => intro acc h; exact h
  | cons y rest ih =>
    intro acc h
    rw [List.foldl_cons]
    by_cases hy : y ∈ acc
    · rw [if_pos hy]; exact ih acc h
    · rw [if_neg hy]
      exact ih _ (by simp [List.nodup_append, h, hy])

theorem dedupFirst_nodup (l : List String) : (dedupFirst l).Nodup :=
  dedupFirst_foldl_nodup l [] (by simp)

theorem dedupFirst_foldl_noop :
    ∀ (l : List String) (acc : List String), (∀ x ∈ l, x ∈ acc) →
      l.foldl (fun acc y => if y ∈ acc then acc else acc ++ [y]) acc = acc := by
  intro l
  induction l with
  | nil => intro acc _; rfl
  | cons y rest ih =>
    intro acc h
    rw [List.foldl_cons, if_pos (h y (List.mem_cons_self y rest))]
    exact ih acc (fun x hx => h x (List.mem_cons_of_mem y hx))

theorem dedupFirst_append {l1 l2 : List String} (h : ∀ x ∈ l2, x ∈ l1) :
    dedupFirst (l1 ++ l2) = dedupFirst l1 := by
  unfold dedupFirst
  rw [List.foldl_append]
  apply dedupFirst_foldl_noop
  intro x hx
  exact dedupFirst_mem.mpr (h x hx)

theorem mem_get_strategies {db : List Balance} {broker s : String} :
    s ∈ get_strategies db broker ↔
      ∃ r ∈ db, r.broker = broker ∧ ¬ r.strategy = "uncategorized" ∧ r.strategy = s := by
  unfold get_strategies
  rw [dedupFirst_mem]
  simp only [List.mem_map, List.mem_filter, decide_eq_true_eq]
  constructor
  · rintro ⟨r, ⟨hr, hb, hu⟩, he⟩
    exact ⟨r, hr, hb, hu, he⟩
  · rintro ⟨r, hr, hb, hu, he⟩
    exact ⟨r, ⟨hr, hb, hu⟩, he⟩

theorem get_strategies_ne_uncat {db : List Balance} {broker s : String}
    (h : s ∈ get_strategies db broker) : ¬ s = "uncategorized" := by
  rcases mem_get_strategies.mp h with ⟨r, _, _, hne, he⟩
  intro hs
  exact hne (by rw [he, hs])

theorem get_strategies_nodup (db : List Balance) (broker : String) :
    (get_strategies db broker).Nodup :=
  dedupFirst_nodup _

theorem get_strategies_append {db extra : List Balance} {broker : String}
    (h : ∀ r ∈ extra, r.broker = broker → ¬ r.strategy = "uncategorized" →
      r.strategy ∈ get_strategies db broker) :
    get_strategies (db ++ extra) broker = get_strategies db broker := by
  unfold get_strategies
  rw [List.filter_append, List.map_append]
  apply dedupFirst_append
  intro x hx
  rcases List.mem_map.mp hx with ⟨r, hr, rfl⟩
  have h2 := List.mem_filter.mp hr
  have h3 := of_decide_eq_true h2.2
  exact dedupFirst_mem.mp (h r h2.1 h3.1 h3.2)

/-! ## Balance derivation cycle lemmas -/

theorem foldl_update_strategy_eq (sc : SymbolClass) (prices : String → String → ℚ)
    (pdb : List Position) (broker : String) (t : Nat) :
    ∀ (strats : List String) (db : List Balance), strats.Nodup →
      strats.foldl (fun d s => update_strategy_balance sc prices pdb d broker s t) db =
        db ++ concatRows (strategyRows sc prices pdb db broker t) strats := by
  intro strats
  induction strats with
  | nil => intro db _; simp [concatRows]
  | cons s0 rest ih =>
    intro db hnd
    rw [List.nodup_cons] at hnd
    rw [List.foldl_cons, update_strategy_balance_eq, ih _ hnd.2]
    simp only [concatRows]
    rw [← List.append_assoc]
    congr 1
    apply concatRows_congr
    intro s hs
    have hne : ¬ s0 = s := fun he => hnd.1 (he ▸ hs)
    have hcash : get_cash_balance
        (db ++ mkRows broker s0 (get_cash_balance db broker s0)
          (calculate_positions_balance sc prices pdb broker s0) t) broker s =
        get_cash_balance db broker s := by
      unfold get_cash_balance latestBalanceD
      rw [latestBalance_append_nonmatch]
      intro r hr
      have hm := mkRows_mem hr
      intro hb
      rw [balFilter_eq_true] at hb
      exact hne (hm.2.1.symm.trans hb.2.1)
    simp only [strategyRows]
    rw [hcash]

theorem get_cash_balance_after_fold (sc : SymbolClass) (prices : String → String → ℚ)
    (pdb : List Position) (broker : String) (t : Nat)
    (strats : List String) (db : List Balance) (hnd : strats.Nodup)
    (hts : ∀ r ∈ db, r.timestamp < t) {s : String} (hs : s ∈ strats) :
    get_cash_balance (db ++ concatRows (strategyRows sc prices pdb db broker t) strats)
      broker s = get_cash_balance db broker s := by
  unfold get_cash_balance latestBalanceD
  have hshape : (db ++ concatRows (strategyRows sc prices pdb db broker t) strats).filter
      (balFilter broker s "cash") =
      db.filter (balFilter broker s "cash") ++
        [⟨broker, s, "cash", get_cash_balance db broker s, t⟩] := by
    rw [List.filter_append]
    congr 1
    rw [concatRows_filter_single strats hnd hs
      (fun s' hs' hne => by unfold strategyRows; exact mkRows_filter_ne_strategy hne)]
    unfold strategyRows
    exact mkRows_filter_cash broker s _ _ t
  rw [latestBalance_shape db broker s "cash" _ _ t hts rfl hshape]
  simp [get_cash_balance, latestBalanceD]

theorem foldl_add_map (f : String → ℚ) :
    ∀ (l : List String) (a : ℚ),
      l.foldl (fun acc s => acc + f s) a = a + (l.map f).sum := by
  intro l
  induction l with
  | nil => intro a; simp
  | cons s rest ih =>
    intro a
    rw [List.foldl_cons, ih, List.map_cons, List.sum_cons]
    ring

theorem sum_each_eq (sc : SymbolClass) (prices : String → String → ℚ)
    (pdb : List Position) (db : List Balance) (broker : String) (strats : List String) :
    sum_each_strategy_balance sc prices pdb db broker strats =
      (strats.map (fun s => get_cash_balance db broker s +
        calculate_positions_balance sc prices pdb broker s)).sum := by
  unfold sum_each_strategy_balance
  rw [foldl_add_map, zero_add]

/-- C2 (amended): after one balance-derivation cycle at timestamp t (all
pre-existing rows being older), for every real strategy of the broker the
most recent total row equals the most recent cash row plus the most recent
positions row. The uncategorized bucket, however, receives only a single
cash row holding max(0, accountValue - categorizedSum) - no total and no
positions rows are ever written for it - and whenever the account value is at
least the categorized sum, the broker-reported account value equals the sum
of the most recent total rows over the real strategies plus the
uncategorized cash row (not a sum of total rows including uncategorized, as
the claim states). -/
theorem c2_balance_invariants (sc : SymbolClass) (prices : String → String → ℚ)
    (pdb : List Position) (db : List Balance) (broker : String) (t : Nat)
    (account_value : ℚ)
    (hts : ∀ r ∈ db, r.timestamp < t)
    (res : List Balance)
    (hres : res = update_all_strategy_balances sc prices pdb db broker t account_value) :
    (∀ s ∈ get_strategies db broker,
      latestBalanceD res broker s "total" =
        latestBalanceD res broker s "cash" + latestBalanceD res broker s "positions") ∧
    (((get_strategies db broker).map (fun s => get_cash_balance db broker s +
        calculate_positions_balance sc prices pdb broker s)).sum ≤ account_value →
      ((get_strategies db broker).map (fun s => latestBalanceD res broker s "total")).sum +
        latestBalanceD res broker "uncategorized" "cash" = account_value) ∧
    latestBalance res broker "uncategorized" "total" =
      latestBalance db broker "uncategorized" "total" ∧
    latestBalance res broker "uncategorized" "positions" =
      latestBalance db broker "uncategorized" "positions" := by
  have hnd : (get_strategies db broker).Nodup := get_strategies_nodup db broker
  have hfold := foldl_update_strategy_eq sc prices pdb broker t (get_strategies db broker) db hnd
  have hstr2 : get_strategies
      (db ++ concatRows (strategyRows sc prices pdb db broker t) (get_strategies db broker))
      broker = get_strategies db broker := by
    apply get_strategies_append
    intro r hr _ _
    rcases concatRows_mem _ hr with ⟨s, hsS, hrs⟩
    have hm := mkRows_mem (by simpa [strategyRows] using hrs)
    rw [hm.2.1]
    exact hsS
  have hre : ∀ s ∈ get_strategies db broker,
      get_cash_balance (db ++ concatRows (strategyRows sc prices pdb db broker t)
        (get_strategies db broker)) broker s = get_cash_balance db broker s :=
    fun s hs => get_cash_balance_after_fold sc prices pdb broker t _ db hnd hts hs
  have hcat : sum_each_strategy_balance sc prices pdb
      (db ++ concatRows (strategyRows sc prices pdb db broker t) (get_strategies db broker))
      broker (get_strategies
        (db ++ concatRows (strategyRows sc prices pdb db broker t)
          (get_strategies db broker)) broker) =
      ((get_strategies db broker).map (fun s => get_cash_balance db broker s +
        calculate_positions_balance sc prices pdb broker s)).sum := by
    rw [hstr2, sum_each_eq]
    exact congrArg List.sum (List.map_congr_left (fun s hs => by rw [hre s hs]))
  have hres2 : res = (db ++ concatRows (strategyRows sc prices pdb db broker t)
      (get_strategies db broker)) ++
      [⟨broker, "uncategorized", "cash",
        max 0 (account_value - ((get_strategies db broker).map
          (fun s => get_cash_balance db broker s +
            calculate_positions_balance sc prices pdb broker s)).sum), t⟩] := by
    rw [hres]
    simp only [update_all_strategy_balances]
    rw [hfold, hcat]
  have hrowcash : ∀ s ∈ get_strategies db broker,
      latestBalance res broker s "cash" =
        some ⟨broker, s, "cash", get_cash_balance db broker s, t⟩ := by
    intro s hs
    have hsu : ¬ ("uncategorized" : String) = s :=
      fun h => get_strategies_ne_uncat hs h.symm
    apply latestBalance_shape db broker s "cash" res _ t hts rfl
    rw [hres2, List.filter_append, List.filter_append,
      concatRows_filter_single _ hnd hs
        (fun s' hs' hne => by unfold strategyRows; exact mkRows_filter_ne_strategy hne)]
    unfold strategyRows
    rw [mkRows_filter_cash]
    simp [balFilter, List.filter_cons, List.filter_nil, hsu]
  have hrowpos : ∀ s ∈ get_strategies db broker,
      latestBalance res broker s "positions" =
        some ⟨broker, s, "positions",
          calculate_positions_balance sc prices pdb broker s, t⟩ := by
    intro s hs
    have hsu : ¬ ("uncategorized" : String) = s :=
      fun h => get_strategies_ne_uncat hs h.symm
    apply latestBalance_shape db broker s "positions" res _ t hts rfl
    rw [hres2, List.filter_append, List.filter_append,
      concatRows_filter_single _ hnd hs
        (fun s' hs' hne => by unfold strategyRows; exact mkRows_filter_ne_strategy hne)]
    unfold strategyRows
    rw [mkRows_filter_positions]
    simp [balFilter, List.filter_cons, List.filter_nil, hsu]
  have hrowtot : ∀ s ∈ get_strategies db broker,
      latestBalance res broker s "total" =
        some ⟨broker, s, "total", get_cash_balance db broker s +
          calculate_positions_balance sc prices pdb broker s, t⟩ := by
    intro s hs
    have hsu : ¬ ("uncategorized" : String) = s :=
      fun h => get_strategies_ne_uncat hs h.symm
    apply latestBalance_shape db broker s "total" res _ t hts rfl
    rw [hres2, List.filter_append, List.filter_append,
      concatRows_filter_single _ hnd hs
        (fun s' hs' hne => by unfold strategyRows; exact mkRows_filter_ne_strategy hne)]
    unfold strategyRows
    rw [mkRows_filter_total]
    simp [balFilter, List.filter_cons, List.filter_nil, hsu]
  have hrowuncat : latestBalance res broker "uncategorized" "cash" =
      some ⟨broker, "uncategorized", "cash",
        max 0 (account_value - ((get_strategies db broker).map
          (fun s => get_cash_balance db broker s +
            calculate_positions_balance sc prices pdb broker s)).sum), t⟩ := by
    apply latestBalance_shape db broker "uncategorized" "cash" res _ t hts rfl
    rw [hres2, List.filter_append, List.filter_append,
      concatRows_filter_eq_nil _
        (fun s' hs' => by
          unfold strategyRows
          exact mkRows_filter_ne_strategy (get_strategies_ne_uncat hs'))]
    simp [balFilter, List.filter_cons, List.filter_nil]
  refine ⟨?_, ?_, ?_, ?_⟩
  · intro s hs
    unfold latestBalanceD
    rw [hrowtot s hs, hrowcash s hs, hrowpos s hs]
    rfl
  · intro hV
    have hsum : ((get_strategies db broker).map
        (fun s => latestBalanceD res broker s "total")).sum =
        ((get_strategies db broker).map (fun s => get_cash_balance db broker s +
          calculate_positions_balance sc prices pdb broker s)).sum := by
      apply congrArg List.sum
      apply List.map_congr_left
      intro s hs
      unfold latestBalanceD
      rw [hrowtot s hs]
      rfl
    have huncat : latestBalanceD res broker "uncategorized" "cash" =
        account_value - ((get_strategies db broker).map
          (fun s => get_cash_balance db broker s +
            calculate_positions_balance sc prices pdb broker s)).sum := by
      unfold latestBalanceD
      rw [hrowuncat]
      show max 0 (account_value - _) = _
      exact max_eq_right (sub_nonneg.mpr hV)
    rw [hsum, huncat]
    ring
  · rw [hres2, List.append_assoc]
    apply latestBalance_append_nonmatch
    intro r hr hb
    rw [balFilter_eq_true] at hb
    rcases List.mem_append.mp hr with h1 | h1
    · rcases concatRows_mem _ h1 with ⟨s, hsS, hrs⟩
      have hm := mkRows_mem (by simpa [strategyRows] using hrs)
      exact get_strategies_ne_uncat hsS (hm.2.1.symm.trans hb.2.1)
    · have h2 := List.mem_singleton.mp h1
      subst h2
      have h3 : ("cash" : String) = "total" := hb.2.2
      exact absurd h3 (by decide)
  · rw [hres2, List.append_assoc]
    apply latestBalance_append_nonmatch
    intro r hr hb
    rw [balFilter_eq_true] at hb
    rcases List.mem_append.mp hr with h1 | h1
    · rcases concatRows_mem _ h1 with ⟨s, hsS, hrs⟩
      have hm := mkRows_mem (by simpa [strategyRows] using hrs)
      exact get_strategies_ne_uncat hsS (hm.2.1.symm.trans hb.2.1)
    · have h2 := List.mem_singleton.mp h1
      subst h2
      have h3 : ("cash" : String) = "positions" := hb.2.2
      exact absurd h3 (by decide)

/-- C2, counterexample: one broker with one real strategy alpha whose latest
cash is 200, no positions, account value 5000, derivation at timestamp 1.
The cycle writes alpha rows (cash 200 / positions 0 / total 200) and a single
uncategorized cash row of 4800; the uncategorized bucket has no total row at
all, so its most recent total (0 by the 0-default) differs from cash +
positions = 4800, and the sum of the most recent total rows over all
strategies including uncategorized is 200, not the account value 5000. -/
theorem c2_counterexample :
    update_all_strategy_balances scNone (fun _ _ => 0) []
        [⟨"b", "alpha", "cash", 200, 0⟩] "b" 1 5000 =
      [⟨"b", "alpha", "cash", 200, 0⟩, ⟨"b", "alpha", "cash", 200, 1⟩,
       ⟨"b", "alpha", "positions", 0, 1⟩, ⟨"b", "alpha", "total", 200, 1⟩,
       ⟨"b", "uncategorized", "cash", 4800, 1⟩] ∧
    latestBalance (update_all_strategy_balances scNone (fun _ _ => 0) []
        [⟨"b", "alpha", "cash", 200, 0⟩] "b" 1 5000) "b" "uncategorized" "total" = none ∧
    ¬ (latestBalanceD (update_all_strategy_balances scNone (fun _ _ => 0) []
          [⟨"b", "alpha", "cash", 200, 0⟩] "b" 1 5000) "b" "uncategorized" "total" =
        latestBalanceD (update_all_strategy_balances scNone (fun _ _ => 0) []
          [⟨"b", "alpha", "cash", 200, 0⟩] "b" 1 5000) "b" "uncategorized" "cash" +
        latestBalanceD (update_all_strategy_balances scNone (fun _ _ => 0) []
          [⟨"b", "alpha", "cash", 200, 0⟩] "b" 1 5000) "b" "uncategorized" "positions") ∧
    ¬ ((["alpha", "uncategorized"].map (fun s =>
          latestBalanceD (update_all_strategy_balances scNone (fun _ _ => 0) []
            [⟨"b", "alpha", "cash", 200, 0⟩] "b" 1 5000) "b" s "total")).sum = 5000) := by
  have hres : update_all_strategy_balances scNone (fun _ _ => 0) []
      [⟨"b", "alpha", "cash", 200, 0⟩] "b" 1 5000 =
      [⟨"b", "alpha", "cash", 200, 0⟩, ⟨"b", "alpha", "cash", 200, 1⟩,
       ⟨"b", "alpha", "positions", 0, 1⟩, ⟨"b", "alpha", "total", 200, 1⟩,
       ⟨"b", "uncategorized", "cash", 4800, 1⟩] := by
    norm_num [update_all_strategy_balances, get_strategies, dedupFirst,
      sum_each_strategy_balance, get_cash_balance, latestBalanceD, latestBalance,
      balFilter, pickLatest, calculate_positions_balance, update_strategy_balance,
      insert_or_update_balance, max_def, List.filter_cons, List.filter_nil,
      List.map_cons, List.map_nil, List.foldl_cons, List.foldl_nil,
      show ¬ ("alpha" : String) = "uncategorized" from by decide,
      show ¬ ("positions" : String) = "cash" from by decide,
      show ¬ ("total" : String) = "cash" from by decide]
  refine ⟨hres, ?_, ?_, ?_⟩
  · rw [hres]
    norm_num [latestBalance, balFilter, pickLatest, List.filter_cons, List.filter_nil,
      List.foldl_cons, List.foldl_nil,
      show ¬ ("alpha" : String) = "uncategorized" from by decide,
      show ¬ ("cash" : String) = "total" from by decide]
  · rw [latestBalanceD, latestBalanceD, latestBalanceD, hres]
    norm_num [latestBalance, balFilter, pickLatest, List.filter_cons, List.filter_nil,
      List.foldl_cons, List.foldl_nil,
      show ¬ ("alpha" : String) = "uncategorized" from by decide,
      show ¬ ("cash" : String) = "total" from by decide,
      show ¬ ("cash" : String) = "positions" from by decide]
  · rw [List.map_cons, List.map_cons, List.map_nil, latestBalanceD, latestBalanceD, hres]
    norm_num [latestBalance, balFilter, pickLatest, List.filter_cons, List.filter_nil,
      List.foldl_cons, List.foldl_nil,
      show ¬ ("alpha" : String) = "uncategorized" from by decide,
      show ¬ ("cash" : String) = "total" from by decide,
      show ¬ ("positions" : String) = "total" from by decide]

/-- C2, witness for the amended theorem at the counterexample's input: the
account value decomposes as alpha's total (200) plus the uncategorized cash
row (4800). -/
theorem c2_balance_invariants_witness :
    ((get_strategies [⟨"b", "alpha", "cash", 200, 0⟩] "b").map (fun s =>
        latestBalanceD (update_all_strategy_balances scNone (fun _ _ => 0) []
          [⟨"b", "alpha", "cash", 200, 0⟩] "b" 1 5000) "b" s "total")).sum +
      latestBalanceD (update_all_strategy_balances scNone (fun _ _ => 0) []
        [⟨"b", "alpha", "cash", 200, 0⟩] "b" 1 5000) "b" "uncategorized" "cash" = 5000 :=
  (c2_balance_invariants scNone (fun _ _ => 0) [] [⟨"b", "alpha", "cash", 200, 0⟩]
    "b" 1 5000
    (by
      intro r hr
      have h := List.mem_singleton.mp hr
      subst h
      decide)
    _ rfl).2.1
    (by
      norm_num [get_strategies, dedupFirst, get_cash_balance, latestBalanceD,
        latestBalance, balFilter, pickLatest, calculate_positions_balance,
        List.filter_cons, List.filter_nil, List.map_cons, List.map_nil,
        List.foldl_cons, List.foldl_nil,
        show ¬ ("alpha" : String) = "uncategorized" from by decide])

end Soad
